import Mathlib
/-!
# Verification of the PyAudioPlayer background-task and download-queue layer

Shallow embedding of the cancellable progress-reporting workers
(`MetadataWorkerThread.run`, `NormWorkerThread.run`), the parallel download
queue (`YTD_Widget` / `DLFrame`), the metadata reader/writer (`metadata.py`)
and the amplitude binning helper (`utils.py`) of the PyAudioPlayer
repository, together with proofs of the specification's testable
properties.

Strings from the Python side (paths, messages, tag keys and values) are
modelled as `List Char`.
-/

/-! ## Definitions -/

/-- Python strings (paths, messages, tag keys/values) as character lists. -/
abbrev PyStr := List Char

/-- `os.path.join(a, b)` for the simple two-component uses in the sources. -/
def joinPath (a b : PyStr) : PyStr := a ++ '/' :: b

/-- `needle.isPrefixOf hay` spelled out for `List Char`. -/
def leadsWith : PyStr → PyStr → Bool
  | [], _ => true
  | _ :: _, [] => false
  | a :: as, b :: bs => a = b && leadsWith as bs

/-- Python's substring test `needle in hay`. -/
def hasSub (needle : PyStr) : PyStr → Bool
  | [] => leadsWith needle []
  | c :: rest => leadsWith needle (c :: rest) || hasSub needle rest

/-- ASCII lower-casing of one character, as Python's `str.lower` acts on the
tag keys appearing here. -/
def lowerChar (c : Char) : Char :=
  if 'A' ≤ c ∧ c ≤ 'Z' then Char.ofNat (c.toNat + 32) else c

/-- Python `s.lower()`. -/
def lowerStr (s : PyStr) : PyStr := s.map lowerChar

/-- Abstract state of one path in the file system, at the resolution the
claims need: missing, present but unparsable (mutagen raises
`HeaderNotFoundError`), or parsed with a duration and a tag dictionary
(association list of key/value, keys distinct as in a Python dict). -/
inductive FileState where
  | absent : FileState
  | badHeader : FileState
  | ok (duration : ℚ) (tags : List (PyStr × PyStr)) : FileState
deriving DecidableEq

/-- A file system: contents of every path. -/
abbrev FileSys := PyStr → FileState

/-- Result of `read_metadata`: the Python list `[duration, genre, year]`. -/
structure MetaResult where
  duration : ℚ
  genre : PyStr
  year : Option PyStr
deriving DecidableEq

/-- The placeholder `[0, "Unknown", None]`. -/
def metaPlaceholder : MetaResult := ⟨0, "Unknown".toList, none⟩

/-- The key-scanning loop of `read_metadata`: for each tag key, a key
containing `"tcon"` (lower-cased) updates the genre and a key containing
`"year"` updates the year; later keys win, as in the Python loop. -/
def scanTags : List (PyStr × PyStr) → PyStr → Option PyStr → PyStr × Option PyStr
  | [], g, y => (g, y)
  | (k, v) :: rest, g, y =>
      scanTags rest
        (if hasSub "tcon".toList (lowerStr k) then v else g)
        (if hasSub "year".toList (lowerStr k) then some v else y)

/-- `read_metadata(path)`: placeholder when the file is missing or the MP3
header cannot be parsed, otherwise the duration plus the scanned tags. -/
def read_metadata (fs : FileSys) (path : PyStr) : MetaResult :=
  match fs path with
  | .absent => metaPlaceholder
  | .badHeader => metaPlaceholder
  | .ok dur tags =>
      let gy := scanTags tags "Unknown".toList none
      ⟨dur, gy.1, gy.2⟩

/-- Events emitted by `MetadataWorkerThread.run`. The `progress` signal
carries no payload in the source; the connected slot increments a completed
counter, recorded here as the event's count. -/
inductive MEvent where
  | progress (completed : Nat) : MEvent
  | dataEv : MEvent
  | doneEv : MEvent
  | finishedEv : MEvent
deriving DecidableEq

/-- The loop of `MetadataWorkerThread.run`: per song, read its metadata and
emit `progress`; afterwards emit `data`, `done`, `finished`. The GUI-string
formatting of each output row (`sec_to_HMS`) is display-only and omitted;
rows keep the song name and the raw `read_metadata` result. -/
def metaLoop (fs : FileSys) (folder : PyStr) :
    List PyStr → Nat → List MEvent × List (PyStr × MetaResult)
  | [], _ => ([MEvent.dataEv, MEvent.doneEv, MEvent.finishedEv], [])
  | s :: rest, c =>
      let r := metaLoop fs folder rest (c + 1)
      (MEvent.progress (c + 1) :: r.1, (s, read_metadata fs (joinPath folder s)) :: r.2)

/-- `MetadataWorkerThread.run`, started with a song list and music folder. -/
def metadataWorkerRun (fs : FileSys) (folder : PyStr) (songs : List PyStr) :
    List MEvent × List (PyStr × MetaResult) :=
  metaLoop fs folder songs 0

/-- Events emitted by `NormWorkerThread.run`; progress signals again carry
the observer's completed count. -/
inductive NEvent where
  | check_progress (completed : Nat) : NEvent
  | convert_qty (n : Nat) : NEvent
  | norm_progress (completed : Nat) : NEvent
  | doneEv : NEvent
  | finishedEv : NEvent
deriving DecidableEq

/-- The check phase of `NormWorkerThread.run`: per song, test
`check_normalized` on the joined path (collecting paths still to convert),
emit `check_progress`, then poll `interrupt_event.is_set()`; if set, emit
`finished` and return (`none` = cancelled).  `flag t` is the value the
`t`-th poll reads from the shared event. -/
def normCheck (isNorm : PyStr → Bool) (flag : Nat → Bool) (folder : PyStr) :
    List PyStr → Nat → List NEvent × Option (List PyStr)
  | [], _ => ([], some [])
  | s :: rest, c =>
      let path := joinPath folder s
      let contrib : List PyStr := if isNorm path then [] else [path]
      if flag (c + 1) then
        ([NEvent.check_progress (c + 1), NEvent.finishedEv], none)
      else
        let r := normCheck isNorm flag folder rest (c + 1)
        (NEvent.check_progress (c + 1) :: r.1, r.2.map (contrib ++ ·))

/-- The conversion phase: one `norm_progress` per pool result with a flag
poll after each (emit `finished` and return when set); after exhaustion,
`done` then `finished`.  `nflag t` is the value read at the `t`-th poll of
this phase. -/
def normLoop (nflag : Nat → Bool) : Nat → Nat → List NEvent
  | 0, _ => [NEvent.doneEv, NEvent.finishedEv]
  | k + 1, c =>
      NEvent.norm_progress (c + 1) ::
        (if nflag (c + 1) then [NEvent.finishedEv] else normLoop nflag k (c + 1))

/-- `NormWorkerThread.run`: the check phase, then (unless cancelled)
`convert_qty` with the number of files to convert and the conversion
phase.  An empty conversion list skips the pool and goes straight to
`done`, `finished`, exactly as the `if len(to_convert) > 0` guard does. -/
def normRun (isNorm : PyStr → Bool) (flag nflag : Nat → Bool) (folder : PyStr)
    (songs : List PyStr) : List NEvent :=
  match normCheck isNorm flag folder songs 0 with
  | (evs, none) => evs
  | (evs, some toConvert) =>
      evs ++ NEvent.convert_qty toConvert.length :: normLoop nflag toConvert.length 0

/-- Recognizer for `check_progress` events. -/
def isCheckProgressEv : NEvent → Bool
  | NEvent.check_progress _ => true
  | _ => false

/-- Recognizer for `done` events. -/
def isDoneEv : NEvent → Bool
  | NEvent.doneEv => true
  | _ => false

/-- Recognizer for `finished` events. -/
def isFinishedEv : NEvent → Bool
  | NEvent.finishedEv => true
  | _ => false

/-- State flags of one `DLFrame`.  In the source `closed` is first assigned
inside `close()`; it is modelled as initially `false` (the poll only reads
it on frames whose `can_close` was set by `close()` itself when
`autoclose=False`, the repository's only configuration). -/
structure Frame where
  url : PyStr
  can_run : Bool
  can_close : Bool
  started : Bool
  finished : Bool
  closed : Bool
deriving DecidableEq

/-- `DLFrame._retry`: refuse when `can_run` is false; otherwise mark the
frame started (the spawned download thread's outcome arrives later as an
environment step). -/
def retryFrame (F : Frame) : Frame :=
  if F.can_run then { F with started := true } else F

/-- `DLFrame.__init__`: a fresh frame for a URL, `_retry`-ed at once when
`start_immediately` holds. -/
def mkFrame (url : PyStr) (start_immediately autoclose : Bool) : Frame :=
  if start_immediately then retryFrame ⟨url, true, autoclose, false, false, false⟩
  else ⟨url, true, autoclose, false, false, false⟩

/-- `DLFrame.close`. -/
def closeFrame (F : Frame) : Frame :=
  { F with closed := true, finished := true, can_close := true }

/-- A frame counted by `_check_runnable`: started and not finished. -/
def isRunning (F : Frame) : Bool := F.started && !F.finished

/-- The count taken by `YTD_Widget._check_runnable`. -/
def qty_running (fs : List Frame) : Nat := (fs.filter isRunning).length

/-- `YTD_Widget._check_runnable()`: may another download start? -/
def check_runnable (N : Nat) (fs : List Frame) : Bool := qty_running fs < N

/-- First loop of `_check_loop`: each pending URL not matching any tracked
frame's URL gets a new frame appended, started immediately iff
`_check_runnable()` holds at creation time (evaluated before the append,
and seeing the frames appended earlier in the same pass). -/
def admitURLs (N : Nat) (autoclose : Bool) : List PyStr → List Frame → List Frame
  | [], fs => fs
  | u :: rest, fs =>
      if fs.any (fun F => F.url == u) then admitURLs N autoclose rest fs
      else admitURLs N autoclose rest (fs ++ [mkFrame u (check_runnable N fs) autoclose])

/-- Second loop of `_check_loop`, with Python's list-iteration semantics:
the iterator keeps an index, and `dl_frames.remove(F)` shifts later
elements left, so the element directly after a removed frame is skipped in
that pass.  A `finished` frame with `can_close` is removed; otherwise an
unstarted frame is `_retry`-ed when `_check_runnable()` holds at that
moment.  `fuel` is one per loop step; the wrapper supplies `fs.length`,
which bounds the steps since the index grows by one each step while the
list never grows. -/
def sweepAux (N : Nat) : Nat → List Frame → Nat → List Frame
  | 0, fs, _ => fs
  | fuel + 1, fs, i =>
      if h : i < fs.length then
        let F := fs.get ⟨i, h⟩
        if F.finished && F.can_close then
          sweepAux N fuel (fs.eraseIdx i) (i + 1)
        else if !F.started && check_runnable N fs then
          sweepAux N fuel (fs.set i (retryFrame F)) (i + 1)
        else
          sweepAux N fuel fs (i + 1)
      else fs

/-- The whole removal/retry loop of `_check_loop`. -/
def sweepFrames (N : Nat) (fs : List Frame) : List Frame :=
  sweepAux N fs.length fs 0

/-- One polling pass of `YTD_Widget._check_loop`: admit the pending URLs
(the pending set is cleared afterwards), then remove/retry. -/
def pollPass (N : Nat) (autoclose : Bool) (urls : List PyStr) (fs : List Frame) :
    List Frame :=
  sweepFrames N (admitURLs N autoclose urls fs)

/-- `YTD_Widget.add_download`: each nonempty URL from the text box joins
the pending set (a Python `set`, modelled as a duplicate-free list in
insertion order). -/
def add_download (pending : List PyStr) : List PyStr → List PyStr
  | [] => pending
  | u :: rest =>
      add_download
        (if 0 < u.length && !pending.contains u then pending ++ [u] else pending) rest

/-- `DLFrame.error(msg)` state effects: a message containing `"unable"`
leaves the frame retryable; otherwise a message containing `"ERROR"` makes
it terminal (`can_run = False`, `finished = True`); any other message
leaves it retryable.  Button and label text are display-only. -/
def errorCallback (F : Frame) (msg : PyStr) : Frame :=
  if hasSub "unable".toList msg then F
  else if hasSub "ERROR".toList msg then { F with can_run := false, finished := true }
  else F

/-- Asynchronous happenings between polling passes: the download thread
succeeding (`self.finished = True`), `yt_dlp.utils.DownloadError` caught
(`self.started = False`), the yt-dlp logger's `error` callback, or the
user pressing the frame's OK button (`DLFrame.close`).  URL submissions
touch only the pending set, never the frames. -/
inductive EnvStep : List Frame → List Frame → Prop where
  | dlSuccess (fs : List Frame) (i : Nat) (h : i < fs.length) :
      EnvStep fs (fs.set i { fs.get ⟨i, h⟩ with finished := true })
  | dlFailure (fs : List Frame) (i : Nat) (h : i < fs.length) :
      EnvStep fs (fs.set i { fs.get ⟨i, h⟩ with started := false })
  | dlErrorMsg (fs : List Frame) (i : Nat) (h : i < fs.length) (msg : PyStr) :
      EnvStep fs (fs.set i (errorCallback (fs.get ⟨i, h⟩) msg))
  | userClose (fs : List Frame) (i : Nat) (h : i < fs.length) :
      EnvStep fs (fs.set i (closeFrame (fs.get ⟨i, h⟩)))

/-- Queue states reachable from the empty widget by environment steps and
polling passes. -/
inductive ReachableQueue (N : Nat) (autoclose : Bool) : List Frame → Prop where
  | init : ReachableQueue N autoclose []
  | env {fs fs' : List Frame} : ReachableQueue N autoclose fs → EnvStep fs fs' →
      ReachableQueue N autoclose fs'
  | poll {fs : List Frame} (urls : List PyStr) : ReachableQueue N autoclose fs →
      ReachableQueue N autoclose (pollPass N autoclose urls fs)

/-- The pending URL set accumulated by successive `add_download` calls. -/
def pendingURLs (batches : List (List PyStr)) : List PyStr :=
  batches.foldl add_download []

/-- The `_TMP` filename mangling shared by `write_metadata` and
`set_normalized`: `name.split(".")`, `"_TMP"` appended to the first
component, then `".".join(...)` — i.e. `_TMP` is inserted before the first
dot, or appended when the name has no dot. -/
def tmpName : PyStr → PyStr
  | [] => "_TMP".toList
  | c :: rest => if c = '.' then "_TMP".toList ++ '.' :: rest else c :: tmpName rest

/-- Outcome of the external ffmpeg invocation: success, or an exception
raised before `os.replace`, in which case at most junk was written at the
temp path. -/
inductive TranscodeOutcome where
  | ok : TranscodeOutcome
  | fail (junk : FileState) : TranscodeOutcome

/-- Modelled from the spec: the ffmpeg call of `write_metadata` (spec §6,
the metadata writer "given a file path and new genre/year, rewrites
tags"), missing from `src/` because ffmpeg is an external collaborator.
`acodec="copy"` keeps the audio stream, hence the duration; per the source
comments in `read_metadata`, the genre is stored in the official `TCON`
tag and the year in the custom `TXXX:Year` tag. -/
def ffmpegCopyWithTags (st : FileState) (genre year : PyStr) : FileState :=
  match st with
  | .ok d _ => .ok d [("TCON".toList, genre), ("TXXX:Year".toList, year)]
  | other => other

/-- Modelled from the spec: the ffmpeg call of `set_normalized` (spec §6),
which rewrites the tags to carry `Norm=state`. -/
def ffmpegCopyWithNorm (st : FileState) (state : Bool) : FileState :=
  match st with
  | .ok d _ =>
      .ok d [("Norm".toList, if state then "True".toList else "False".toList)]
  | other => other

/-- `write_metadata(basepath, songname, genre, year)`: ffmpeg writes the
re-tagged copy to the `_TMP` name, then `os.replace(tmp, original)`
installs it in one rename step.  On a transcode failure the exception
propagates (`Except.error`) with only the temp path possibly written; the
rename never happens. -/
def write_metadata (fs : FileSys) (basepath songname genre year : PyStr) :
    TranscodeOutcome → Except FileSys FileSys
  | .fail junk =>
      .error fun p =>
        if p = tmpName (joinPath basepath songname) then junk else fs p
  | .ok =>
      let orig := joinPath basepath songname
      let tmp := tmpName orig
      let fs1 : FileSys :=
        fun p => if p = tmp then ffmpegCopyWithTags (fs orig) genre year else fs p
      .ok fun p => if p = tmp then .absent else if p = orig then fs1 tmp else fs1 p

/-- `set_normalized(basepath, songname, state)`: the same temp-then-rename
dance; `songname=None` means `basepath` is already the full path. -/
def set_normalized (fs : FileSys) (basepath : PyStr) (songname : Option PyStr)
    (state : Bool) : TranscodeOutcome → Except FileSys FileSys :=
  let orig := match songname with
    | none => basepath
    | some s => joinPath basepath s
  let tmp := tmpName orig
  fun oc =>
    match oc with
    | .fail junk => .error fun p => if p = tmp then junk else fs p
    | .ok =>
        let fs1 : FileSys :=
          fun p => if p = tmp then ffmpegCopyWithNorm (fs orig) state else fs p
        .ok fun p => if p = tmp then .absent else if p = orig then fs1 tmp else fs1 p

/-- The file system as left behind by a call, whether it returned
(`Except.ok`) or an exception propagated (`Except.error`). -/
def resultFS (e : Except FileSys FileSys) : FileSys :=
  match e with
  | .ok fs => fs
  | .error fs => fs

/-- Python's `max` over a list: `none` on the empty list (`ValueError`). -/
def pyMax : List Nat → Option Nat
  | [] => none
  | x :: xs =>
      some (match pyMax xs with
        | none => x
        | some m => Nat.max x m)

/-- A Python slice `data[a:b]` (indices clipped to the list length). -/
def pySlice (l : List Int) (a b : Nat) : List Int := (l.take b).drop a

/-- The loop of `max_amplitude_binning` over `range(num_bins + 1)`:
append the maximum absolute value of each slice, the whole call failing
(`none`) as soon as a slice is empty, as Python's `max` raises there. -/
def binLoop (data : List Int) (bw : Nat) : Nat → Nat → Option (List Nat)
  | 0, _ => some []
  | k + 1, b =>
      match pyMax ((pySlice data (b * bw) ((b + 1) * bw)).map Int.natAbs) with
      | none => none
      | some m => (binLoop data bw k (b + 1)).map (m :: ·)

/-- `utils.max_amplitude_binning(data, num_bins)`; `num_bins = 0` raises
`ZeroDivisionError` in Python, mapped to `none`. -/
def max_amplitude_binning (data : List Int) (num_bins : Nat) : Option (List Nat) :=
  if num_bins = 0 then none
  else binLoop data (data.length / num_bins) (num_bins + 1) 0

/-! ## Theorems -/

theorem range_map_succ (f : Nat → α) (n : Nat) :
    (List.range (n + 1)).map f = f 0 :: (List.range n).map (fun i => f (i + 1)) := by
  rw [List.range_succ_eq_map, List.map_cons, List.map_map]
  rfl

theorem metaLoop_events (fs : FileSys) (folder : PyStr) :
    ∀ (songs : List PyStr) (c : Nat),
      (metaLoop fs folder songs c).1 =
        ((List.range songs.length).map fun i => MEvent.progress (c + i + 1)) ++
          [MEvent.dataEv, MEvent.doneEv, MEvent.finishedEv] := by
  intro songs
  induction songs with
  | nil => intro c; simp [metaLoop]
  | cons s rest ih =>
      intro c
      have harith : (fun i => MEvent.progress (c + 1 + i + 1)) =
          (fun i => MEvent.progress (c + (i + 1) + 1)) := by
        funext i; congr 1; omega
      simp only [metaLoop, ih (c + 1), List.length_cons,
        range_map_succ (fun i => MEvent.progress (c + i + 1)) rest.length]
      rw [harith]
      simp

theorem normCheck_events_no_cancel (isNorm : PyStr → Bool) (folder : PyStr) :
    ∀ (songs : List PyStr) (c : Nat),
      normCheck isNorm (fun _ => false) folder songs c =
        (((List.range songs.length).map fun i => NEvent.check_progress (c + i + 1)),
          some ((songs.map (joinPath folder)).filter fun p => !isNorm p)) := by
  intro songs
  induction songs with
  | nil => intro c; simp [normCheck]
  | cons s rest ih =>
      intro c
      have harith : (fun i => NEvent.check_progress (c + 1 + i + 1)) =
          (fun i => NEvent.check_progress (c + (i + 1) + 1)) := by
        funext i; congr 1; omega
      simp only [normCheck, ih (c + 1), List.length_cons,
        range_map_succ (fun i => NEvent.check_progress (c + i + 1)) rest.length]
      rw [harith]
      by_cases hn : isNorm (joinPath folder s) <;> simp [hn, List.filter]

theorem normLoop_events_no_cancel :
    ∀ (k c : Nat),
      normLoop (fun _ => false) k c =
        ((List.range k).map fun i => NEvent.norm_progress (c + i + 1)) ++
          [NEvent.doneEv, NEvent.finishedEv] := by
  intro k
  induction k with
  | zero => intro c; simp [normLoop]
  | succ k ih =>
      intro c
      have harith : (fun i => NEvent.norm_progress (c + 1 + i + 1)) =
          (fun i => NEvent.norm_progress (c + (i + 1) + 1)) := by
        funext i; congr 1; omega
      simp only [normLoop, ih (c + 1),
        range_map_succ (fun i => NEvent.norm_progress (c + i + 1)) k]
      rw [harith]
      simp

/-- Claim C1: for every item list of length K, a task run to completion without
cancellation emits exactly K progress events with completed counts 1..K in
order, then exactly one terminal sequence.  First conjunct: the metadata
scan worker emits K `progress` events, then `data`, `done`, `finished`.
Second conjunct: the normalization worker with the interrupt flag never set
emits K `check_progress` events with counts 1..K, then (after the
conversion phase's own `convert_qty` and `norm_progress` events) exactly
one `done` and one `finished`. -/
theorem C1_run_to_completion_events (fs : FileSys) (folder : PyStr)
    (songs : List PyStr) (isNorm : PyStr → Bool) :
    (metadataWorkerRun fs folder songs).1 =
      ((List.range songs.length).map fun i => MEvent.progress (i + 1)) ++
        [MEvent.dataEv, MEvent.doneEv, MEvent.finishedEv]
    ∧ normRun isNorm (fun _ => false) (fun _ => false) folder songs =
        ((List.range songs.length).map fun i => NEvent.check_progress (i + 1)) ++
          NEvent.convert_qty
              ((songs.map (joinPath folder)).filter fun p => !isNorm p).length ::
            (((List.range ((songs.map (joinPath folder)).filter
                  fun p => !isNorm p).length).map
                fun i => NEvent.norm_progress (i + 1)) ++
              [NEvent.doneEv, NEvent.finishedEv]) := by
  constructor
  · have h := metaLoop_events fs folder songs 0
    simpa [metadataWorkerRun] using h
  · have hc := normCheck_events_no_cancel isNorm folder songs 0
    have hl := normLoop_events_no_cancel
      ((songs.map (joinPath folder)).filter fun p => !isNorm p).length 0
    simp only [normRun, hc, hl]
    simp

/-- Closed form of the check phase when the shared flag becomes set so that
the `s`-th poll is the first to observe it: the phase emits `check_progress`
counts up to `s` and a single `finished`, and reports cancellation. -/
theorem normCheck_events_cancel (isNorm : PyStr → Bool) (folder : PyStr) (s : Nat) :
    ∀ (songs : List PyStr) (c : Nat), c < s → s ≤ c + songs.length →
      normCheck isNorm (fun t => decide (s ≤ t)) folder songs c =
        (((List.range (s - c)).map fun i => NEvent.check_progress (c + i + 1)) ++
          [NEvent.finishedEv], none) := by
  intro songs
  induction songs with
  | nil => intro c hc hs; simp at hs; omega
  | cons hd rest ih =>
      intro c hc hs
      by_cases hset : s ≤ c + 1
      · have hsc : s = c + 1 := by omega
        have hrange : s - c = 1 := by omega
        simp [normCheck, hset, hrange, hsc, List.range_succ]
      · have hlt : c + 1 < s := by omega
        have hle : s ≤ c + 1 + rest.length := by
          simp [List.length_cons] at hs; omega
        have harith : (fun i => NEvent.check_progress (c + 1 + i + 1)) =
            (fun i => NEvent.check_progress (c + (i + 1) + 1)) := by
          funext i; congr 1; omega
        have hrange : s - c = (s - (c + 1)) + 1 := by omega
        simp only [normCheck, decide_eq_true_eq, if_neg hset, ih (c + 1) hlt hle,
          hrange, range_map_succ (fun i => NEvent.check_progress (c + i + 1))]
        rw [harith]
        simp

/-- Counterexample for claim C2: take `K = 1` (one song) and `M = 0` — the
cancellation flag is set before any item completes, so every poll reads it
as set.  The claim then allows no progress events at all, but
`NormWorkerThread.run` polls the flag only *after* processing an item and
emitting its progress signal, so the run still emits one `check_progress`
event. -/
theorem C2_counterexample :
    ¬ ((normRun (fun _ => false) (fun _ => true) (fun _ => false) []
          [['a']]).countP isCheckProgressEv ≤ 0) := by
  decide

/-- Claim C2 as amended: if the shared cancellation flag becomes set when exactly
`M < K` items have completed (so the first poll to observe it is poll `M`
or poll `M + 1`, the flag being polled only after each item's progress
emission), the task emits at most `M + 1` progress events — one more than
the claimed `M`, because an item already in flight still completes and
reports — exactly one `finished` event, and no `done` event. -/
theorem C2_cancellation_events (isNorm : PyStr → Bool) (folder : PyStr)
    (songs : List PyStr) (flag nflag : Nat → Bool) (M s : Nat)
    (hflag : ∀ t, flag t = decide (s ≤ t))
    (hM : M < songs.length) (hMs : M ≤ s) (hsM : s ≤ M + 1) (hs1 : 1 ≤ s) :
    (normRun isNorm flag nflag folder songs).countP isCheckProgressEv ≤ M + 1
    ∧ (normRun isNorm flag nflag folder songs).countP isFinishedEv = 1
    ∧ (normRun isNorm flag nflag folder songs).countP isDoneEv = 0 := by
  have hfun : flag = fun t => decide (s ≤ t) := funext hflag
  subst hfun
  have hrun : normRun isNorm (fun t => decide (s ≤ t)) nflag folder songs =
      ((List.range (s - 0)).map fun i => NEvent.check_progress (0 + i + 1)) ++
        [NEvent.finishedEv] := by
    rw [normRun, normCheck_events_cancel isNorm folder s songs 0 (by omega)
      (by omega)]
  rw [hrun]
  refine ⟨?_, ?_, ?_⟩
  · have hall : ∀ a ∈ (List.range (s - 0)).map
        (fun i => NEvent.check_progress (0 + i + 1)), isCheckProgressEv a = true := by
      intro a ha
      rcases List.mem_map.mp ha with ⟨i, _, rfl⟩
      rfl
    have hcount := List.countP_eq_length.mpr hall
    simp only [List.countP_append, hcount, List.length_map, List.length_range]
    have : ([NEvent.finishedEv].countP isCheckProgressEv) = 0 := by decide
    omega
  · have hcount : ((List.range (s - 0)).map
        fun i => NEvent.check_progress (0 + i + 1)).countP isFinishedEv = 0 := by
      rw [List.countP_eq_zero]
      intro a ha
      rcases List.mem_map.mp ha with ⟨i, _, rfl⟩
      simp [isFinishedEv]
    simp [List.countP_append, hcount, List.countP_cons, isFinishedEv]
  · have hcount : ((List.range (s - 0)).map
        fun i => NEvent.check_progress (0 + i + 1)).countP isDoneEv = 0 := by
      rw [List.countP_eq_zero]
      intro a ha
      rcases List.mem_map.mp ha with ⟨i, _, rfl⟩
      simp [isDoneEv]
    simp [List.countP_append, hcount, List.countP_cons, isDoneEv]

/-- Witness for claim C2 (amended): two songs, flag set when one item has
completed and observed at the second poll (`M = 1`, `s = 2`). -/
theorem C2_cancellation_events_witness :
    (normRun (fun _ => false) (fun t => decide (2 ≤ t)) (fun _ => false) []
        [['a'], ['b'], ['c']]).countP isCheckProgressEv ≤ 2
    ∧ (normRun (fun _ => false) (fun t => decide (2 ≤ t)) (fun _ => false) []
        [['a'], ['b'], ['c']]).countP isFinishedEv = 1
    ∧ (normRun (fun _ => false) (fun t => decide (2 ≤ t)) (fun _ => false) []
        [['a'], ['b'], ['c']]).countP isDoneEv = 0 :=
  C2_cancellation_events (fun _ => false) [] [['a'], ['b'], ['c']]
    (fun t => decide (2 ≤ t)) (fun _ => false) 1 2 (fun _ => rfl)
    (by decide) (by decide) (by decide) (by decide)

theorem qty_running_append (fs gs : List Frame) :
    qty_running (fs ++ gs) = qty_running fs + qty_running gs := by
  simp [qty_running, List.filter_append]

theorem isRunning_mkFrame (u : PyStr) (s a : Bool) :
    isRunning (mkFrame u s a) = s := by
  cases s <;> simp [mkFrame, retryFrame, isRunning]

theorem qty_running_admit_le (N : Nat) (a : Bool) :
    ∀ (us : List PyStr) (fs : List Frame), qty_running fs ≤ N →
      qty_running (admitURLs N a us fs) ≤ N := by
  intro us
  induction us with
  | nil => intro fs h; simpa [admitURLs] using h
  | cons u rest ih =>
      intro fs h
      by_cases hmem : fs.any (fun F => F.url == u)
      · simpa [admitURLs, hmem] using ih fs h
      · have hnew : qty_running (fs ++ [mkFrame u (check_runnable N fs) a]) ≤ N := by
          have hsingle : qty_running [mkFrame u (check_runnable N fs) a] =
              if check_runnable N fs then 1 else 0 := by
            by_cases hrun : check_runnable N fs <;>
              simp [qty_running, List.filter, isRunning_mkFrame, hrun]
          rw [qty_running_append, hsingle]
          by_cases hrun : check_runnable N fs
          · have hlt : qty_running fs < N := by
              simpa [check_runnable] using hrun
            rw [if_pos hrun]
            omega
          · rw [if_neg hrun]
            omega
        simpa [admitURLs, hmem] using ih _ hnew

theorem qty_running_set_le (G : Frame) :
    ∀ (fs : List Frame) (i : Nat), qty_running (fs.set i G) ≤ qty_running fs + 1 := by
  intro fs
  induction fs with
  | nil => intro i; simp [qty_running]
  | cons F rest ih =>
      intro i
      cases i with
      | zero =>
          simp only [List.set_cons_zero]
          by_cases hG : isRunning G <;> by_cases hF : isRunning F <;>
            simp [qty_running, List.filter, hG, hF] <;> omega
      | succ j =>
          have := ih j
          by_cases hF : isRunning F <;>
            simp [qty_running, List.filter, hF] at this ⊢ <;> omega

theorem qty_running_set_mono (G : Frame) :
    ∀ (fs : List Frame) (i : Nat) (hi : i < fs.length),
      (isRunning G = true → isRunning (fs.get ⟨i, hi⟩) = true) →
      qty_running (fs.set i G) ≤ qty_running fs := by
  intro fs
  induction fs with
  | nil => intro i hi; simp at hi
  | cons F rest ih =>
      intro i hi h
      cases i with
      | zero =>
          simp only [List.set_cons_zero]
          simp only [List.get] at h
          by_cases hG : isRunning G
          · have hF : isRunning F = true := h hG
            simp [qty_running, List.filter, hG, hF]
          · by_cases hF : isRunning F <;>
              simp [qty_running, List.filter, hG, hF]
      | succ j =>
          have hj : j < rest.length := by simpa using hi
          have h' : isRunning G = true → isRunning (rest.get ⟨j, hj⟩) = true := by
            simpa [List.get] using h
          have := ih j hj h'
          by_cases hF : isRunning F <;>
            simp [qty_running, List.filter, hF] at this ⊢ <;> omega

theorem qty_running_eraseIdx_le (fs : List Frame) (i : Nat) :
    qty_running (fs.eraseIdx i) ≤ qty_running fs :=
  List.Sublist.length_le (List.Sublist.filter isRunning (List.eraseIdx_sublist fs i))

theorem qty_running_sweepAux_le (N : Nat) :
    ∀ (fuel : Nat) (fs : List Frame) (i : Nat), qty_running fs ≤ N →
      qty_running (sweepAux N fuel fs i) ≤ N := by
  intro fuel
  induction fuel with
  | zero => intro fs i h; simpa [sweepAux] using h
  | succ fuel ih =>
      intro fs i h
      rw [sweepAux]
      by_cases hlen : i < fs.length
      · simp only [dif_pos hlen]
        by_cases hclose : (fs.get ⟨i, hlen⟩).finished && (fs.get ⟨i, hlen⟩).can_close
        · simp only [if_pos hclose]
          exact ih _ _ (le_trans (qty_running_eraseIdx_le fs i) h)
        · simp only [if_neg hclose]
          by_cases hretry : !(fs.get ⟨i, hlen⟩).started && check_runnable N fs
          · simp only [if_pos hretry]
            have hlt : qty_running fs < N := by
              have := (Bool.and_eq_true _ _).mp hretry
              simpa [check_runnable] using this.2
            exact ih _ _ (le_trans (qty_running_set_le _ fs i) hlt)
          · simp only [if_neg hretry]
            exact ih _ _ h
      · simpa [dif_neg hlen] using h

theorem envStep_qty_running_le {fs fs' : List Frame} (h : EnvStep fs fs') :
    qty_running fs' ≤ qty_running fs := by
  cases h with
  | dlSuccess i hi =>
      exact qty_running_set_mono _ _ i hi (by simp [isRunning])
  | dlFailure i hi =>
      exact qty_running_set_mono _ _ i hi (by simp [isRunning])
  | dlErrorMsg i hi msg =>
      refine qty_running_set_mono _ _ i hi ?_
      intro hrun
      unfold errorCallback at hrun
      by_cases h1 : hasSub "unable".toList msg = true
      · rwa [if_pos h1] at hrun
      · rw [if_neg h1] at hrun
        by_cases h2 : hasSub "ERROR".toList msg = true
        · rw [if_pos h2] at hrun
          simp [isRunning] at hrun
        · rwa [if_neg h2] at hrun
  | userClose i hi =>
      exact qty_running_set_mono _ _ i hi (by simp [isRunning, closeFrame])

/-- Claim C3: for any arrival pattern of submitted URLs and any concurrency
ceiling `N ≥ 1`, in every reachable state of the download queue — in
particular at every polling instant of `_check_loop` — the number of
download items simultaneously in the running state (started and not
finished) never exceeds `N`: admission and retry both start a frame only
after `_check_runnable()` re-counts the running frames, and asynchronous
outcomes only take frames out of the running state. -/
theorem C3_running_frames_le_parallel_lim (N : Nat) (autoclose : Bool)
    (fs : List Frame) (hN : 1 ≤ N) (hreach : ReachableQueue N autoclose fs) :
    qty_running fs ≤ N := by
  induction hreach with
  | init => simp [qty_running]
  | env _ hstep ih => exact le_trans (envStep_qty_running_le hstep) ih
  | poll urls _ ih =>
      exact qty_running_sweepAux_le N _ _ 0 (qty_running_admit_le N autoclose urls _ ih)

/-- Witness for claim C3: ceiling 1, two URLs submitted before the first poll,
state after that poll. -/
theorem C3_running_frames_le_parallel_lim_witness :
    1 ≤ 1 ∧ qty_running (pollPass 1 false [['a'], ['b']] []) ≤ 1 :=
  ⟨by decide,
    C3_running_frames_le_parallel_lim 1 false _ (by decide)
      (ReachableQueue.poll [['a'], ['b']] ReachableQueue.init)⟩

theorem list_set_get_self {α : Type} (l : List α) (i : Nat) (h : i < l.length) :
    l.set i (l.get ⟨i, h⟩) = l := by
  apply List.ext_getElem
  · simp
  · intro n h1 h2
    by_cases hn : n = i
    · subst hn; simp
    · rw [List.getElem_set_ne (by omega)]

theorem retryFrame_url (F : Frame) : (retryFrame F).url = F.url := by
  by_cases h : F.can_run <;> simp [retryFrame, h]

theorem retryFrame_finished (F : Frame) : (retryFrame F).finished = F.finished := by
  by_cases h : F.can_run <;> simp [retryFrame, h]

theorem retryFrame_can_close (F : Frame) : (retryFrame F).can_close = F.can_close := by
  by_cases h : F.can_run <;> simp [retryFrame, h]

theorem mkFrame_url (u : PyStr) (s a : Bool) : (mkFrame u s a).url = u := by
  cases s <;> simp [mkFrame, retryFrame]

theorem mkFrame_finished (u : PyStr) (s a : Bool) : (mkFrame u s a).finished = false := by
  cases s <;> simp [mkFrame, retryFrame]

theorem add_download_mem :
    ∀ (text pending : List PyStr) (u : PyStr),
      u ∈ add_download pending text ↔ u ∈ pending ∨ (u ∈ text ∧ u ≠ []) := by
  intro text
  induction text with
  | nil => intro pending u; simp [add_download]
  | cons v rest ih =>
      intro pending u
      simp only [add_download]
      rw [ih]
      by_cases hc : (0 < v.length && !pending.contains v) = true
      · have hv : v ≠ [] := by
          have := ((Bool.and_eq_true _ _).mp hc).1
          intro he; subst he; simp at this
        rw [if_pos hc]
        simp only [List.mem_append, List.mem_cons, List.not_mem_nil, or_false]
        constructor
        · rintro ((hp | rfl) | ⟨hr, hne⟩)
          · exact Or.inl hp
          · exact Or.inr ⟨Or.inl rfl, hv⟩
          · exact Or.inr ⟨Or.inr hr, hne⟩
        · rintro (hp | ⟨(rfl | hr), hne⟩)
          · exact Or.inl (Or.inl hp)
          · exact Or.inl (Or.inr rfl)
          · exact Or.inr ⟨hr, hne⟩
      · have hcases : v = [] ∨ v ∈ pending := by
          by_cases hlen : 0 < v.length
          · right
            by_cases hcon : v ∈ pending
            · exact hcon
            · exfalso
              apply hc
              refine (Bool.and_eq_true _ _).mpr ⟨by simpa using hlen, ?_⟩
              simp [hcon]
          · left
            cases v with
            | nil => rfl
            | cons c cs => simp at hlen
        rw [if_neg hc]
        simp only [List.mem_cons]
        constructor
        · rintro (hp | ⟨hr, hne⟩)
          · exact Or.inl hp
          · exact Or.inr ⟨Or.inr hr, hne⟩
        · rintro (hp | ⟨(rfl | hr), hne⟩)
          · exact Or.inl hp
          · rcases hcases with h | h
            · exact absurd h hne
            · exact Or.inl h
          · exact Or.inr ⟨hr, hne⟩

theorem add_download_nodup :
    ∀ (text pending : List PyStr), pending.Nodup → (add_download pending text).Nodup := by
  intro text
  induction text with
  | nil => intro pending h; simpa [add_download] using h
  | cons v rest ih =>
      intro pending h
      simp only [add_download]
      by_cases hc : (0 < v.length && !pending.contains v) = true
      · rw [if_pos hc]
        refine ih _ ?_
        have hnv : v ∉ pending := by
          have hb := ((Bool.and_eq_true _ _).mp hc).2
          simpa using hb
        rw [← List.concat_eq_append]
        exact List.Nodup.concat hnv h
      · rw [if_neg hc]
        exact ih pending h

theorem pendingURLs_nodup_aux :
    ∀ (batches : List (List PyStr)) (acc : List PyStr), acc.Nodup →
      (batches.foldl add_download acc).Nodup := by
  intro batches
  induction batches with
  | nil => intro acc h; simpa using h
  | cons b rest ih => intro acc h; exact ih _ (add_download_nodup b acc h)

theorem pendingURLs_mem_aux :
    ∀ (batches : List (List PyStr)) (acc : List PyStr) (u : PyStr),
      u ∈ batches.foldl add_download acc ↔
        u ∈ acc ∨ (u ∈ batches.flatten ∧ u ≠ []) := by
  intro batches
  induction batches with
  | nil => intro acc u; simp
  | cons b rest ih =>
      intro acc u
      simp only [List.foldl_cons, ih, add_download_mem, List.flatten_cons,
        List.mem_append]
      tauto

theorem admitURLs_map_url (N : Nat) (a : Bool) :
    ∀ (us : List PyStr) (fs : List Frame), us.Nodup →
      (∀ u ∈ us, ∀ F ∈ fs, F.url ≠ u) →
      (admitURLs N a us fs).map Frame.url = fs.map Frame.url ++ us := by
  intro us
  induction us with
  | nil => intro fs _ _; simp [admitURLs]
  | cons u rest ih =>
      intro fs hnd hdis
      have hany : (fs.any fun F => F.url == u) = false := by
        rw [List.any_eq_false]
        intro F hF
        simp [hdis u (by simp) F hF]
      rw [show admitURLs N a (u :: rest) fs =
          (if fs.any (fun F => F.url == u) then admitURLs N a rest fs
           else admitURLs N a rest (fs ++ [mkFrame u (check_runnable N fs) a]))
        from rfl]
      rw [hany]
      simp only [Bool.false_eq_true, if_false]
      rw [ih (fs ++ [mkFrame u (check_runnable N fs) a]) (List.Nodup.of_cons hnd) ?_]
      · simp [mkFrame_url, List.append_assoc]
      · intro u' hu' F hF
        rcases List.mem_append.mp hF with h | h
        · exact hdis u' (by simp [hu']) F h
        · have : F = mkFrame u (check_runnable N fs) a := by simpa using h
          subst this
          rw [mkFrame_url]
          intro he
          subst he
          exact (List.nodup_cons.mp hnd).1 hu'

theorem admitURLs_frames_fresh (N : Nat) (a : Bool) :
    ∀ (us : List PyStr) (fs : List Frame) (F : Frame),
      F ∈ admitURLs N a us fs → F ∈ fs ∨ F.finished = false := by
  intro us
  induction us with
  | nil => intro fs F h; exact Or.inl (by simpa [admitURLs] using h)
  | cons u rest ih =>
      intro fs F h
      rw [show admitURLs N a (u :: rest) fs =
          (if fs.any (fun F => F.url == u) then admitURLs N a rest fs
           else admitURLs N a rest (fs ++ [mkFrame u (check_runnable N fs) a]))
        from rfl] at h
      by_cases hany : (fs.any fun F => F.url == u) = true
      · rw [if_pos hany] at h
        exact ih fs F h
      · rw [if_neg hany] at h
        rcases ih _ F h with hmem | hfin
        · rcases List.mem_append.mp hmem with h1 | h1
          · exact Or.inl h1
          · have : F = mkFrame u (check_runnable N fs) a := by simpa using h1
            subst this
            exact Or.inr (mkFrame_finished _ _ _)
        · exact Or.inr hfin

theorem sweepAux_map_url (N : Nat) :
    ∀ (fuel : Nat) (fs : List Frame) (i : Nat),
      (∀ F ∈ fs, (F.finished && F.can_close) = false) →
      (sweepAux N fuel fs i).map Frame.url = fs.map Frame.url := by
  intro fuel
  induction fuel with
  | zero => intro fs i _; simp [sweepAux]
  | succ fuel ih =>
      intro fs i hno
      rw [sweepAux]
      by_cases hlen : i < fs.length
      · simp only [dif_pos hlen]
        have hF := hno (fs.get ⟨i, hlen⟩) (List.get_mem fs i hlen)
        rw [if_neg (fun hcl => Bool.false_ne_true (hF ▸ hcl))]
        by_cases hretry : (!(fs.get ⟨i, hlen⟩).started && check_runnable N fs) = true
        · rw [if_pos hretry]
          have hset : ∀ F ∈ fs.set i (retryFrame (fs.get ⟨i, hlen⟩)),
              (F.finished && F.can_close) = false := by
            intro F hFmem
            rcases List.mem_or_eq_of_mem_set hFmem with hm | hm
            · exact hno F hm
            · subst hm
              rw [retryFrame_finished, retryFrame_can_close]
              exact hF
          rw [ih _ (i + 1) hset, List.map_set, retryFrame_url]
          have hmap : Frame.url (fs.get ⟨i, hlen⟩) =
              (fs.map Frame.url).get ⟨i, by simpa⟩ := by simp
          rw [hmap, list_set_get_self]
        · rw [if_neg hretry]
          exact ih fs (i + 1) hno
      · simp [dif_neg hlen]

theorem admitURLs_tracked (N : Nat) (a : Bool) :
    ∀ (us : List PyStr) (fs : List Frame),
      (∀ u ∈ us, ∃ F ∈ fs, F.url = u) → admitURLs N a us fs = fs := by
  intro us
  induction us with
  | nil => intro fs _; rfl
  | cons u rest ih =>
      intro fs h
      have hany : (fs.any fun F => F.url == u) = true := by
        rw [List.any_eq_true]
        rcases h u (by simp) with ⟨F, hF, he⟩
        exact ⟨F, hF, by simp [he]⟩
      rw [show admitURLs N a (u :: rest) fs =
          (if fs.any (fun F => F.url == u) then admitURLs N a rest fs
           else admitURLs N a rest (fs ++ [mkFrame u (check_runnable N fs) a]))
        from rfl]
      rw [hany]
      simp only [if_true]
      exact ih fs (fun u' hu' => h u' (by simp [hu']))

/-- Claim C4: duplicate URLs collapse to a single tracked download item.  First
part: the pending set built by any sequence of `add_download` submissions
is duplicate-free, holds exactly the distinct nonempty submitted URLs, and
the first polling pass creates exactly one frame per pending URL (the
frame list's URLs are exactly the distinct submitted URLs).  Second part:
resubmitting URLs that are all already tracked by frames leaves the frame
list unchanged — no new frame is created. -/
theorem C4_duplicate_urls_collapse (N : Nat) (autoclose : Bool)
    (batches : List (List PyStr)) (fs : List Frame) (us : List PyStr) :
    ((pendingURLs batches).Nodup
      ∧ (∀ u, u ∈ pendingURLs batches ↔ u ∈ batches.flatten ∧ u ≠ [])
      ∧ (pollPass N autoclose (pendingURLs batches) []).map Frame.url =
          pendingURLs batches)
    ∧ ((∀ u ∈ us, ∃ F ∈ fs, F.url = u) → admitURLs N autoclose us fs = fs) := by
  refine ⟨⟨pendingURLs_nodup_aux batches [] (by simp), ?_, ?_⟩, ?_⟩
  · intro u
    simpa using pendingURLs_mem_aux batches [] u
  · rw [pollPass, sweepFrames, sweepAux_map_url, admitURLs_map_url]
    · simp
    · exact pendingURLs_nodup_aux batches [] (by simp)
    · intro u _ F hF
      simp at hF
    · intro F hF
      rcases admitURLs_frames_fresh N autoclose _ _ F hF with h | h
      · simp at h
      · simp [h]
  · exact admitURLs_tracked N autoclose us fs

/-- Witness for claim C4: three submissions of `"a"` (one empty string dropped)
and one of `"b"` collapse to two frames; resubmitting `"a"` over a frame
list already tracking it adds nothing. -/
theorem C4_duplicate_urls_collapse_witness :
    (pollPass 2 false (pendingURLs [[['a'], [], ['a']], [['b'], ['a']]]) []).map
        Frame.url = pendingURLs [[['a'], [], ['a']], [['b'], ['a']]]
    ∧ admitURLs 2 false [['a']] [⟨['a'], true, false, true, false, false⟩] =
        [⟨['a'], true, false, true, false, false⟩] :=
  ⟨(C4_duplicate_urls_collapse 2 false [[['a'], [], ['a']], [['b'], ['a']]] [] []).1.2.2,
   (C4_duplicate_urls_collapse 2 false [] [⟨['a'], true, false, true, false, false⟩]
      [['a']]).2 (by decide)⟩

theorem mem_eraseIdx_of_ne {α : Type} :
    ∀ (l : List α) (i : Nat) (h : i < l.length) (a : α),
      a ∈ l → a ≠ l.get ⟨i, h⟩ → a ∈ l.eraseIdx i := by
  intro l
  induction l with
  | nil => intro i h; simp at h
  | cons x xs ih =>
      intro i h a hmem hne
      cases i with
      | zero =>
          rcases List.mem_cons.mp hmem with rfl | hx
          · exact absurd rfl hne
          · simpa [List.eraseIdx] using hx
      | succ j =>
          have hj : j < xs.length := by simpa using h
          rcases List.mem_cons.mp hmem with rfl | hx
          · simp [List.eraseIdx]
          · have : a ∈ xs.eraseIdx j := ih j hj a hx (by simpa using hne)
            simp [List.eraseIdx, this]

theorem mem_set_of_ne {α : Type} :
    ∀ (l : List α) (i : Nat) (h : i < l.length) (a b : α),
      a ∈ l → a ≠ l.get ⟨i, h⟩ → a ∈ l.set i b := by
  intro l
  induction l with
  | nil => intro i h; simp at h
  | cons x xs ih =>
      intro i h a b hmem hne
      cases i with
      | zero =>
          rcases List.mem_cons.mp hmem with rfl | hx
          · exact absurd rfl hne
          · simp [hx]
      | succ j =>
          have hj : j < xs.length := by simpa using h
          rcases List.mem_cons.mp hmem with rfl | hx
          · simp
          · have : a ∈ xs.set j b := ih j hj a b hx (by simpa using hne)
            simp [this]

theorem mem_set_self {α : Type} :
    ∀ (l : List α) (i : Nat), i < l.length → ∀ (b : α), b ∈ l.set i b := by
  intro l
  induction l with
  | nil => intro i h; simp at h
  | cons x xs ih =>
      intro i h b
      cases i with
      | zero => simp
      | succ j =>
          have hj : j < xs.length := by simpa using h
          simp [ih j hj b]

/-- A running frame survives the removal/retry sweep: it is never removed
(not `finished`) and never overwritten by a retry (already `started`). -/
theorem running_persists_sweepAux (N : Nat) :
    ∀ (fuel : Nat) (fs : List Frame) (i : Nat) (G : Frame),
      G ∈ fs → isRunning G = true → G ∈ sweepAux N fuel fs i := by
  intro fuel
  induction fuel with
  | zero => intro fs i G hmem _; simpa [sweepAux] using hmem
  | succ fuel ih =>
      intro fs i G hmem hrun
      have hGflags : G.started = true ∧ G.finished = false := by
        have := hrun
        simp [isRunning] at this
        exact this
      rw [sweepAux]
      by_cases hlen : i < fs.length
      · simp only [dif_pos hlen]
        by_cases hclose :
            ((fs.get ⟨i, hlen⟩).finished && (fs.get ⟨i, hlen⟩).can_close) = true
        · rw [if_pos hclose]
          refine ih _ _ G ?_ hrun
          refine mem_eraseIdx_of_ne fs i hlen G hmem ?_
          intro he
          have : G.finished = true := by
            rw [he]
            exact ((Bool.and_eq_true _ _).mp hclose).1
          rw [hGflags.2] at this
          exact Bool.false_ne_true this
        · rw [if_neg hclose]
          by_cases hretry :
              (!(fs.get ⟨i, hlen⟩).started && check_runnable N fs) = true
          · rw [if_pos hretry]
            refine ih _ _ G ?_ hrun
            refine mem_set_of_ne fs i hlen G _ hmem ?_
            intro he
            have : (!G.started) = true := by
              rw [he]
              exact ((Bool.and_eq_true _ _).mp hretry).1
            rw [hGflags.1] at this
            simp at this
          · rw [if_neg hretry]
            exact ih _ _ G hmem hrun
      · simpa [dif_neg hlen] using hmem

/-- The sweep walks over a block of running frames without changing
anything: no removal (not finished), no retry (already started), one unit
of fuel per index. -/
theorem sweepAux_advance (N : Nat) :
    ∀ (n : Nat) (fuel : Nat) (fs : List Frame) (j : Nat), j + n ≤ fs.length →
      (∀ k (hk : k < fs.length), j ≤ k → k < j + n →
        isRunning (fs.get ⟨k, hk⟩) = true) →
      sweepAux N (fuel + n) fs j = sweepAux N fuel fs (j + n) := by
  intro n
  induction n with
  | zero => intro fuel fs j _ _; rfl
  | succ n ih =>
      intro fuel fs j hlen hrun
      have hj : j < fs.length := by omega
      have hFrun : isRunning (fs.get ⟨j, hj⟩) = true :=
        hrun j hj (Nat.le_refl j) (by omega)
      have hflags : (fs.get ⟨j, hj⟩).started = true ∧
          (fs.get ⟨j, hj⟩).finished = false := by
        have := hFrun
        simp [isRunning] at this
        exact this
      have hstep : sweepAux N (fuel + (n + 1)) fs j =
          sweepAux N (fuel + n) fs (j + 1) := by
        rw [show fuel + (n + 1) = (fuel + n) + 1 from rfl, sweepAux]
        simp only [dif_pos hj]
        rw [if_neg (by rw [hflags.2]; simp),
          if_neg (by rw [hflags.1]; simp)]
      rw [hstep, ih fuel fs (j + 1) (by omega)
        (fun k hk h1 h2 => hrun k hk (by omega) (by omega))]
      congr 1
      omega

/-- Counterexample for claim C5: frame `a` was downloaded and closed by the user
(`finished`, `can_close`, `closed` all true) and frame `b` ended the
previous pass retryable-failed (`started = false`, `finished = false`,
`can_run = true`); zero items are running and the ceiling is `N = 2`.
The next polling pass removes frame `a`, and — because
`dl_frames.remove(F)` runs inside the `for F in self.dl_frames` loop —
the iterator skips frame `b`, leaving it unstarted: `_retry` is not
called even though fewer than `N` items are running, refuting the claim. -/
theorem C5_counterexample :
    qty_running [⟨['a'], true, true, true, true, true⟩,
        ⟨['b'], true, false, false, false, false⟩] < 2
    ∧ pollPass 2 false [] [⟨['a'], true, true, true, true, true⟩,
        ⟨['b'], true, false, false, false, false⟩] =
      [⟨['b'], true, false, false, false, false⟩] := by
  decide

/-- Claim C5 as amended: a retryable-failed frame (`started = false`,
`finished = false`, `can_run = true`) at position `i` is restarted by the
next polling pass provided the pass is not disturbed before reaching it:
every pending URL is already tracked (no new frame admissions), every
earlier frame in the list is currently running (so none is removed —
`dl_frames.remove` during iteration would skip the following frame — and
none consumes capacity by retrying first), and fewer than `N` items are
running.  A skipped or crowded-out frame is picked up by a later pass
instead. -/
theorem C5_retry_on_next_poll (N : Nat) (autoclose : Bool) (urls : List PyStr)
    (fs : List Frame) (i : Nat) (hi : i < fs.length)
    (htracked : ∀ u ∈ urls, ∃ F ∈ fs, F.url = u)
    (hbefore : ∀ k (hk : k < fs.length), k < i → isRunning (fs.get ⟨k, hk⟩) = true)
    (hstart : (fs.get ⟨i, hi⟩).started = false)
    (hfin : (fs.get ⟨i, hi⟩).finished = false)
    (hcan : (fs.get ⟨i, hi⟩).can_run = true)
    (hqr : qty_running fs < N) :
    ∃ G ∈ pollPass N autoclose urls fs,
      G.url = (fs.get ⟨i, hi⟩).url ∧ G.started = true := by
  rw [pollPass, admitURLs_tracked N autoclose urls fs htracked, sweepFrames]
  have hadv := sweepAux_advance N i (fs.length - i) fs 0 (by omega)
    (fun k hk _ h2 => hbefore k hk (by omega))
  rw [show (fs.length - i) + i = fs.length from by omega,
    show 0 + i = i from by omega] at hadv
  obtain ⟨fuel, hfuel⟩ : ∃ fuel, fs.length - i = fuel + 1 :=
    ⟨fs.length - i - 1, by omega⟩
  rw [hadv, hfuel, sweepAux]
  simp only [dif_pos hi]
  rw [if_neg (by rw [hfin]; simp),
    if_pos (by rw [hstart]; simpa [check_runnable] using hqr)]
  set G := retryFrame (fs.get ⟨i, hi⟩) with hG
  have hGval : G = { fs.get ⟨i, hi⟩ with started := true } := by
    rw [hG, retryFrame, if_pos hcan]
  refine ⟨G, ?_, ?_, ?_⟩
  · refine running_persists_sweepAux N fuel _ (i + 1) G ?_ ?_
    · exact mem_set_self fs i hi G
    · rw [hGval]
      simp only [isRunning, Bool.and_eq_true, Bool.not_eq_true']
      exact ⟨by simp, hfin⟩
  · rw [hGval]
  · rw [hGval]

/-- Witness for claim C5 (amended): one running frame `a` followed by a
retryable-failed frame `b`, ceiling 2, no pending URLs: the pass restarts
`b`. -/
theorem C5_retry_on_next_poll_witness :
    ∃ G ∈ pollPass 2 false [] [⟨['a'], true, false, true, false, false⟩,
        ⟨['b'], true, false, false, false, false⟩],
      G.url = (([⟨['a'], true, false, true, false, false⟩,
        ⟨['b'], true, false, false, false, false⟩] :
          List Frame).get ⟨1, by decide⟩).url ∧ G.started = true :=
  C5_retry_on_next_poll 2 false [] _ 1 (by decide)
    (by intro u hu; simp at hu)
    (by
      intro k hk hlt
      have hk0 : k = 0 := by omega
      subst hk0
      rfl)
    (by decide) (by decide) (by decide) (by decide)

/-- Claim C6: classification of messages delivered to `DLFrame.error`.  A message
containing `"unable"` is retryable: the frame's flags are untouched (not
terminal) and a later `_retry` still starts it whenever `can_run` holds.
Otherwise a message containing `"ERROR"` is permanent: `can_run` becomes
false and `finished` true, and `_retry` is a no-op from then on.  Any other
message is retryable (flags untouched). -/
theorem C6_error_message_classification (F : Frame) (msg : PyStr) :
    (hasSub "unable".toList msg = true →
      errorCallback F msg = F ∧
        (F.can_run = true → (retryFrame (errorCallback F msg)).started = true))
    ∧ (hasSub "unable".toList msg = false → hasSub "ERROR".toList msg = true →
        (errorCallback F msg).can_run = false ∧
          (errorCallback F msg).finished = true ∧
          retryFrame (errorCallback F msg) = errorCallback F msg)
    ∧ (hasSub "unable".toList msg = false → hasSub "ERROR".toList msg = false →
        errorCallback F msg = F) := by
  refine ⟨?_, ?_, ?_⟩
  · intro h1
    have he : errorCallback F msg = F := by
      rw [errorCallback, if_pos h1]
    refine ⟨he, ?_⟩
    intro hcan
    rw [he, retryFrame, if_pos hcan]
  · intro h1 h2
    have he : errorCallback F msg =
        { F with can_run := false, finished := true } := by
      rw [errorCallback, if_neg (by rw [h1]; simp), if_pos h2]
    rw [he]
    exact ⟨rfl, rfl, by rw [retryFrame]; simp⟩
  · intro h1 h2
    rw [errorCallback, if_neg (by rw [h1]; simp), if_neg (by rw [h2]; simp)]

/-- Witness for claim C6 at concrete messages: a retryable `"unable ..."`
failure, a permanent `"ERROR: ..."` failure, and an unclassified message. -/
theorem C6_error_message_classification_witness :
    errorCallback ⟨['a'], true, false, true, false, false⟩
        "unable to download video data".toList =
      ⟨['a'], true, false, true, false, false⟩
    ∧ (errorCallback ⟨['a'], true, false, true, false, false⟩
        "ERROR: unsupported URL".toList).can_run = false
    ∧ (errorCallback ⟨['a'], true, false, true, false, false⟩
        "ERROR: unsupported URL".toList).finished = true
    ∧ errorCallback ⟨['a'], true, false, true, false, false⟩
        "something odd".toList =
      ⟨['a'], true, false, true, false, false⟩ :=
  ⟨((C6_error_message_classification ⟨['a'], true, false, true, false, false⟩
      "unable to download video data".toList).1 (by decide)).1,
   ((C6_error_message_classification ⟨['a'], true, false, true, false, false⟩
      "ERROR: unsupported URL".toList).2.1 (by decide) (by decide)).1,
   ((C6_error_message_classification ⟨['a'], true, false, true, false, false⟩
      "ERROR: unsupported URL".toList).2.1 (by decide) (by decide)).2.1,
   (C6_error_message_classification ⟨['a'], true, false, true, false, false⟩
      "something odd".toList).2.2 (by decide) (by decide)⟩

theorem metaLoop_rows (fs : FileSys) (folder : PyStr) :
    ∀ (songs : List PyStr) (c : Nat),
      (metaLoop fs folder songs c).2 =
        songs.map fun s => (s, read_metadata fs (joinPath folder s)) := by
  intro songs
  induction songs with
  | nil => intro c; simp [metaLoop]
  | cons s rest ih => intro c; simp [metaLoop, ih (c + 1)]

/-- Claim C7: when the metadata read fails — the file does not exist, or tag /
header parsing raises `HeaderNotFoundError` — `read_metadata` returns the
placeholder `[0, "Unknown", None]` instead of raising; consequently the
batch scan of `MetadataWorkerThread.run` produces one row for every song
in the list, never aborting on an unreadable file. -/
theorem C7_unreadable_file_placeholder (fs : FileSys) (path : PyStr)
    (folder : PyStr) (songs : List PyStr)
    (hbad : fs path = FileState.absent ∨ fs path = FileState.badHeader) :
    read_metadata fs path = metaPlaceholder
    ∧ (metadataWorkerRun fs folder songs).2 =
        songs.map (fun s => (s, read_metadata fs (joinPath folder s))) := by
  constructor
  · rcases hbad with h | h <;> rw [read_metadata, h]
  · exact metaLoop_rows fs folder songs 0

/-- Witness for claim C7: a file system where `"x"` is missing and `"y"` is
unparsable; the scan still yields one row per song. -/
theorem C7_unreadable_file_placeholder_witness :
    read_metadata
        (fun p => if p = ['y'] then FileState.badHeader else FileState.absent)
        ['x'] = metaPlaceholder
    ∧ (metadataWorkerRun
        (fun p => if p = ['y'] then FileState.badHeader else FileState.absent)
        [] [['x'], ['y']]).2 =
      [(['x'], metaPlaceholder), (['y'], metaPlaceholder)] := by
  have h := C7_unreadable_file_placeholder
    (fun p => if p = ['y'] then FileState.badHeader else FileState.absent)
    ['x'] [] [['x'], ['y']] (Or.inl (by decide))
  refine ⟨h.1, ?_⟩
  rw [h.2]
  decide

theorem tmpName_length : ∀ (p : PyStr), (tmpName p).length = p.length + 4 := by
  intro p
  induction p with
  | nil => rfl
  | cons c rest ih =>
      by_cases hc : c = '.'
      · simp [tmpName, hc]
      · simp [tmpName, hc, ih]

theorem tmpName_ne (p : PyStr) : tmpName p ≠ p := by
  intro h
  have := tmpName_length p
  rw [h] at this
  omega

/-- Claim C8: writing genre `"Rock"` and year `"1999"` with `write_metadata`
and then calling `read_metadata` on the same file returns genre `"Rock"`
and year `"1999"` as the second and third components: ffmpeg stores them
under `TCON` and `TXXX:Year`, and the reader's key scan (`"tcon"` /
`"year"` in the lower-cased key) finds exactly those keys. -/
theorem C8_genre_year_round_trip (fs : FileSys) (basepath songname : PyStr)
    (d : ℚ) (tags : List (PyStr × PyStr))
    (hok : fs (joinPath basepath songname) = FileState.ok d tags) :
    (read_metadata
        (resultFS (write_metadata fs basepath songname
          "Rock".toList "1999".toList .ok))
        (joinPath basepath songname)).genre = "Rock".toList
    ∧ (read_metadata
        (resultFS (write_metadata fs basepath songname
          "Rock".toList "1999".toList .ok))
        (joinPath basepath songname)).year = some "1999".toList := by
  have horig : resultFS (write_metadata fs basepath songname
      "Rock".toList "1999".toList .ok) (joinPath basepath songname) =
      FileState.ok d [("TCON".toList, "Rock".toList),
        ("TXXX:Year".toList, "1999".toList)] := by
    have hne : joinPath basepath songname ≠ tmpName (joinPath basepath songname) :=
      fun h => tmpName_ne _ h.symm
    rw [write_metadata, resultFS]
    simp [hne, hok, ffmpegCopyWithTags]
  have hread : read_metadata
      (resultFS (write_metadata fs basepath songname
        "Rock".toList "1999".toList .ok))
      (joinPath basepath songname) =
      ⟨d, "Rock".toList, some "1999".toList⟩ := by
    rw [read_metadata, horig]
    rfl
  exact ⟨by rw [hread], by rw [hread]⟩

/-- Witness for claim C8: a one-file file system holding a parsed MP3. -/
theorem C8_genre_year_round_trip_witness :
    (read_metadata (resultFS (write_metadata (fun _ => FileState.ok 7 [])
        "d".toList "s.mp3".toList "Rock".toList "1999".toList .ok))
      (joinPath "d".toList "s.mp3".toList)).genre = "Rock".toList
    ∧ (read_metadata (resultFS (write_metadata (fun _ => FileState.ok 7 [])
        "d".toList "s.mp3".toList "Rock".toList "1999".toList .ok))
      (joinPath "d".toList "s.mp3".toList)).year = some "1999".toList :=
  C8_genre_year_round_trip (fun _ => FileState.ok 7 []) "d".toList
    "s.mp3".toList 7 [] rfl

/-- Claim C9: metadata tag writes are atomic with respect to the original file.
For both `write_metadata` and `set_normalized` (with and without a song
name), a transcode failure before the rename leaves the original path's
content unchanged — junk lands only at the `_TMP` name, which always
differs from the original.  On success the original path carries the
complete new content in one `os.replace` step, so no partial write is ever
visible at the original path. -/
theorem C9_write_then_rename_atomic (fs : FileSys)
    (basepath songname g y : PyStr) (junk junk2 : FileState) (state : Bool) :
    resultFS (write_metadata fs basepath songname g y (.fail junk))
        (joinPath basepath songname) = fs (joinPath basepath songname)
    ∧ resultFS (set_normalized fs basepath (some songname) state (.fail junk2))
        (joinPath basepath songname) = fs (joinPath basepath songname)
    ∧ resultFS (set_normalized fs basepath none state (.fail junk2)) basepath =
        fs basepath
    ∧ resultFS (write_metadata fs basepath songname g y .ok)
        (joinPath basepath songname) =
      ffmpegCopyWithTags (fs (joinPath basepath songname)) g y := by
  have hne1 : joinPath basepath songname ≠ tmpName (joinPath basepath songname) :=
    fun h => tmpName_ne _ h.symm
  have hne2 : basepath ≠ tmpName basepath := fun h => tmpName_ne _ h.symm
  refine ⟨?_, ?_, ?_, ?_⟩
  · rw [write_metadata, resultFS]
    simp [hne1]
  · simp only [set_normalized, resultFS]
    simp [hne1]
  · simp only [set_normalized, resultFS]
    simp [hne2]
  · rw [write_metadata, resultFS]
    simp [hne1]

theorem pyMax_of_ne_nil (l : List Nat) (h : l ≠ []) : ∃ m, pyMax l = some m := by
  cases l with
  | nil => exact absurd rfl h
  | cons x xs => exact ⟨_, rfl⟩

theorem pySlice_length (l : List Int) (a b : Nat) :
    (pySlice l a b).length = min b l.length - a := by
  simp [pySlice]

theorem binLoop_some (data : List Int) (bw : Nat) :
    ∀ (k b : Nat),
      (∀ j, b ≤ j → j < b + k → pySlice data (j * bw) ((j + 1) * bw) ≠ []) →
      binLoop data bw k b =
        some ((List.range k).map fun i =>
          (pyMax ((pySlice data ((b + i) * bw)
            ((b + i + 1) * bw)).map Int.natAbs)).getD 0) := by
  intro k
  induction k with
  | zero => intro b _; simp [binLoop]
  | succ k ih =>
      intro b hne
      have hb : pySlice data (b * bw) ((b + 1) * bw) ≠ [] :=
        hne b (Nat.le_refl b) (by omega)
      have hmapne : (pySlice data (b * bw) ((b + 1) * bw)).map Int.natAbs ≠ [] := by
        intro hcon
        exact hb (List.map_eq_nil_iff.mp hcon)
      obtain ⟨m, hm⟩ := pyMax_of_ne_nil _ hmapne
      have harith : (fun i =>
          (pyMax ((pySlice data ((b + 1 + i) * bw)
            ((b + 1 + i + 1) * bw)).map Int.natAbs)).getD 0) =
          (fun i =>
          (pyMax ((pySlice data ((b + (i + 1)) * bw)
            ((b + (i + 1) + 1) * bw)).map Int.natAbs)).getD 0) := by
        funext i
        have e1 : b + 1 + i = b + (i + 1) := by omega
        rw [e1]
      rw [binLoop, hm, ih (b + 1) (fun j h1 h2 => hne j (by omega) (by omega)),
        range_map_succ (fun i =>
          (pyMax ((pySlice data ((b + i) * bw)
            ((b + i + 1) * bw)).map Int.natAbs)).getD 0) k]
      rw [harith]
      simp [hm]

theorem binLoop_none (data : List Int) (bw : Nat) :
    ∀ (k b : Nat),
      (∀ j, b ≤ j → j < b + k → pySlice data (j * bw) ((j + 1) * bw) ≠ []) →
      pySlice data ((b + k) * bw) ((b + k + 1) * bw) = [] →
      binLoop data bw (k + 1) b = none := by
  intro k
  induction k with
  | zero =>
      intro b _ hempty
      simp only [Nat.add_zero] at hempty
      rw [binLoop, hempty]
      rfl
  | succ k ih =>
      intro b hne hempty
      have hb : pySlice data (b * bw) ((b + 1) * bw) ≠ [] :=
        hne b (Nat.le_refl b) (by omega)
      have hmapne : (pySlice data (b * bw) ((b + 1) * bw)).map Int.natAbs ≠ [] := by
        intro hcon
        exact hb (List.map_eq_nil_iff.mp hcon)
      obtain ⟨m, hm⟩ := pyMax_of_ne_nil _ hmapne
      have hrec : binLoop data bw (k + 1) (b + 1) = none := by
        refine ih (b + 1) (fun j h1 h2 => hne j (by omega) (by omega)) ?_
        have e1 : b + 1 + k = b + (k + 1) := by omega
        rw [e1]
        exact hempty
      rw [binLoop, hm, hrec]
      rfl

/-- Claim C10: for `num_bins ≥ 1` with `len(data) ≥ num_bins`,
`max_amplitude_binning` iterates over `range(num_bins + 1)`.  When
`num_bins` does not divide `len(data)`, it returns a list of exactly
`num_bins + 1` values, value `b` being the maximum absolute value of the
slice `data[b*binwidth:(b+1)*binwidth]` with
`binwidth = len(data) // num_bins`.  When `num_bins` divides `len(data)`
exactly, the final slice is empty and the call fails — Python's `max`
raises `ValueError` on an empty sequence — instead of returning. -/
theorem C10_max_amplitude_binning_bins (data : List Int) (nb : Nat)
    (h1 : 1 ≤ nb) (h2 : nb ≤ data.length) :
    (¬ (nb ∣ data.length) →
      max_amplitude_binning data nb =
        some ((List.range (nb + 1)).map fun b =>
          (pyMax ((pySlice data (b * (data.length / nb))
            ((b + 1) * (data.length / nb))).map Int.natAbs)).getD 0))
    ∧ (nb ∣ data.length → max_amplitude_binning data nb = none) := by
  have hbw : 1 ≤ data.length / nb :=
    (Nat.le_div_iff_mul_le (by omega)).mpr (by omega)
  have hmul : nb * (data.length / nb) ≤ data.length :=
    Nat.mul_div_le data.length nb
  have hnonempty : ∀ j, j < nb →
      pySlice data (j * (data.length / nb)) ((j + 1) * (data.length / nb)) ≠ [] := by
    intro j hj hnil
    have hlen := pySlice_length data (j * (data.length / nb))
      ((j + 1) * (data.length / nb))
    rw [hnil] at hlen
    have hle : (j + 1) * (data.length / nb) ≤ data.length :=
      le_trans (Nat.mul_le_mul_right _ (by omega)) hmul
    have hsucc : (j + 1) * (data.length / nb) =
        j * (data.length / nb) + data.length / nb := by ring
    simp at hlen
    omega
  refine ⟨?_, ?_⟩
  · intro hndvd
    have hr : data.length % nb ≠ 0 := fun h => hndvd (Nat.dvd_of_mod_eq_zero h)
    have hdm := Nat.div_add_mod data.length nb
    have hlast : pySlice data (nb * (data.length / nb))
        ((nb + 1) * (data.length / nb)) ≠ [] := by
      intro hnil
      have hlen := pySlice_length data (nb * (data.length / nb))
        ((nb + 1) * (data.length / nb))
      rw [hnil] at hlen
      have hsucc : (nb + 1) * (data.length / nb) =
          nb * (data.length / nb) + data.length / nb := by ring
      simp at hlen
      omega
    rw [max_amplitude_binning, if_neg (by omega)]
    have h := binLoop_some data (data.length / nb) (nb + 1) 0 ?_
    · simpa using h
    · intro j _ hj
      simp only [Nat.zero_add] at hj
      by_cases hjn : j < nb
      · exact hnonempty j hjn
      · have : j = nb := by omega
        subst this
        exact hlast
  · intro hdvd
    have hr : data.length % nb = 0 := Nat.dvd_iff_mod_eq_zero.mp hdvd
    have hdm := Nat.div_add_mod data.length nb
    have hlast : pySlice data (nb * (data.length / nb))
        ((nb + 1) * (data.length / nb)) = [] := by
      have hlen := pySlice_length data (nb * (data.length / nb))
        ((nb + 1) * (data.length / nb))
      have hsucc : (nb + 1) * (data.length / nb) =
          nb * (data.length / nb) + data.length / nb := by ring
      have : (pySlice data (nb * (data.length / nb))
          ((nb + 1) * (data.length / nb))).length = 0 := by omega
      exact List.eq_nil_of_length_eq_zero this
    rw [max_amplitude_binning, if_neg (by omega)]
    refine binLoop_none data (data.length / nb) nb 0 ?_ (by simpa using hlast)
    intro j _ hj
    simp only [Nat.zero_add] at hj
    exact hnonempty j hj

/-- Witness for claim C10: `data = [1, -2, 3]`, `num_bins = 2` (which does
not divide 3): binwidth 1, three slices `[1]`, `[-2]`, `[3]`, and the call
returns `[1, 2, 3]`. -/
theorem C10_max_amplitude_binning_bins_witness :
    1 ≤ 2 ∧ 2 ≤ 3 ∧ max_amplitude_binning [1, -2, 3] 2 = some [1, 2, 3] := by
  refine ⟨by decide, by decide, ?_⟩
  have h := (C10_max_amplitude_binning_bins [1, -2, 3] 2 (by decide) (by decide)).1
    (by decide)
  rw [h]
  decide
